import Mathlib

/-!
Shallow embedding of technovangelist/omar (src/src/main.rs), a batch report
generator that indexes Ollama model manifests by content hash, correlates
them with server logs, and prints usage tables.

Modelling conventions:
* Log lines are `List Char`.  Rust indexes strings by bytes; every string
  constant and every concrete input used here is ASCII, where byte and char
  positions coincide.
* Rust `HashMap` is modelled as an association list in insertion order
  (`alookup` / the update helpers mirror the `entry()` API).  The claims are
  insensitive to iteration order.
* `DateTime<Local>` values are modelled as `Int` instants.  The two chrono
  parsers (`DateTime::parse_from_rfc3339` composed with the conversion to
  local time, and `NaiveDateTime::parse_from_str` composed with
  `Local.from_local_datetime`) are external library calls, so the embedding
  is parameterised over them as functions `List Char → Option Int`.
* A Rust panic (out-of-bounds string slice) is modelled by returning `none`
  from the step function.
-/

/-- Rust `str::starts_with`: `lpre pat s` is true when `pat` is an initial
segment of `s`. -/
def lpre (pat s : List Char) : Bool :=
  match pat, s with
  | [], _ => true
  | _ :: _, [] => false
  | a :: as, b :: bs => a = b && lpre as bs

/-- Rust `str::find`: byte index of the first occurrence of `pat` in `s`. -/
def findSub (pat : List Char) : List Char → Option Nat
  | [] => if pat = [] then some 0 else none
  | c :: rest => if lpre pat (c :: rest) then some 0 else (findSub pat rest).map (· + 1)

/-- Rust slice `s[a..b]`: `none` models the panic when `b` exceeds the
length (or `a > b`). -/
def sliceOpt (s : List Char) (a b : Nat) : Option (List Char) :=
  if a ≤ b ∧ b ≤ s.length then some ((s.drop a).take (b - a)) else none

/-- Rust `char` test used for `&line[i..i+1] == "/"` on ASCII lines. -/
def charAt (s : List Char) (i : Nat) : Option Char := s.get? i

/-- Association-list lookup, standing in for `HashMap::get`. -/
def alookup {α : Type} (k : String) : List (String × α) → Option α
  | [] => none
  | (k', v) :: rest => if k' = k then some v else alookup k rest

/-- `HashMap::entry(k).or_insert_with(init)` followed by an in-place
mutation `f` of the entry. -/
def aupdate {α : Type} (m : List (String × α)) (k : String) (init : α) (f : α → α) :
    List (String × α) :=
  match m with
  | [] => [(k, f init)]
  | (k', v) :: rest => if k' = k then (k', f v) :: rest else (k', v) :: aupdate rest k init f

/-- struct ModelUsage (main.rs lines 26-32). -/
structure ModelUsage where
  name : String
  last_used : Int
  usage_count : Nat
  size : Nat
deriving Repr, DecidableEq

/-- The manifest index `HashMap<String, (String, u64)>` of
`find_model_manifests`: hash to (joined display name, size). -/
abbrev ModelIndex := List (String × (String × Nat))

/-- The usage map `HashMap<String, ModelUsage>` built by `parse_logs`. -/
abbrev UsageMap := List (String × ModelUsage)

def timeKey : List Char := "time=".data

def loaderMarker : List Char := "llama_model_loader: loaded meta data".data

def shaTok : List Char := "sha256-".data

/-- Hash resolution of `parse_logs` (main.rs lines 184-187): look the
64-byte hash up in the index, falling back to the
`<first 8 bytes>...-deleted` display name with size 0. -/
def resolveHash (idx : ModelIndex) (hashChars : List Char) : String × Nat :=
  match alookup (String.mk hashChars) idx with
  | some (name, sz) => (name, sz)
  | none => (String.mk (hashChars.take 8) ++ "...-deleted", 0)

/-- One load event as observed by the line loop: the resolved display name
and size, the `last_timestamp` cursor at the event, and the containing
file's modification time. -/
structure LogEvent where
  name : String
  size : Nat
  cursor : Option Int
  mtime : Int
deriving Repr, DecidableEq

/-- The per-load-event map update of `parse_logs` (main.rs lines 189-201):
`entry().or_insert_with` a fresh record timestamped
`last_timestamp.unwrap_or(file_time)` with count 0, then increment
`usage_count`, and raise `last_used` when the cursor is `Some` and
strictly greater than the stored value. -/
def bumpUsage (m : UsageMap) (e : LogEvent) : UsageMap :=
  let init : ModelUsage :=
    { name := e.name
      last_used := e.cursor.getD e.mtime
      usage_count := 0
      size := e.size }
  aupdate m e.name init fun u =>
    let u1 := { u with usage_count := u.usage_count + 1 }
    match e.cursor with
    | some t => if t > u1.last_used then { u1 with last_used := t } else u1
    | none => u1

/-- State threaded through the per-line loop of `parse_logs`: the
`last_timestamp` cursor and the usage map. -/
structure LineState where
  lastTs : Option Int
  usage : UsageMap
deriving Repr, DecidableEq

/-- One iteration of the line loop of `parse_logs` (main.rs lines 170-203).
`prfc` stands for `DateTime::parse_from_rfc3339` (plus the local-time
conversion) and `pslash` for the `NaiveDateTime`/`Local` parse of the
19-byte slash-date prefix.  Returns `none` exactly when the Rust code
panics: the slice `line[hash_start+7 .. hash_start+71]` runs past the end
of the line. -/
def processLine (idx : ModelIndex) (prfc pslash : List Char → Option Int)
    (fileTime : Int) (st : LineState) (line : List Char) : Option LineState :=
  if lpre timeKey line then
    match prfc (line.drop 5) with
    | some t => some { st with lastTs := some t }
    | none => some st
  else if line.length > 19 ∧ charAt line 4 = some '/' ∧ charAt line 7 = some '/' then
    match pslash (line.take 19) with
    | some t => some { st with lastTs := some t }
    | none => some st
  else if lpre loaderMarker line then
    match findSub shaTok line with
    | some hashStart =>
      match sliceOpt line (hashStart + 7) (hashStart + 71) with
      | some hashChars =>
        let ev : LogEvent :=
          { name := (resolveHash idx hashChars).1
            size := (resolveHash idx hashChars).2
            cursor := st.lastTs
            mtime := fileTime }
        some { st with usage := bumpUsage st.usage ev }
      | none => none
    | none => some st
  else
    some st

/-- The line loop over one log file's lines. -/
def runLines (idx : ModelIndex) (prfc pslash : List Char → Option Int) (fileTime : Int)
    (st : LineState) : List (List Char) → Option LineState
  | [] => some st
  | line :: rest =>
    match processLine idx prfc pslash fileTime st line with
    | some st' => runLines idx prfc pslash fileTime st' rest
    | none => none

/-- One log file: its `modified()` metadata time and its lines. -/
structure LogFile where
  mtime : Int
  lines : List (List Char)

/-- The file loop of `parse_logs` (main.rs lines 161-205): the cursor
`last_timestamp` restarts at `None` for each file while the usage map
persists.  (`seen_hashes` is populated by the source but never read, so it
is not modelled.) -/
def parseLogs (idx : ModelIndex) (prfc pslash : List Char → Option Int)
    (m : UsageMap) : List LogFile → Option UsageMap
  | [] => some m
  | f :: rest =>
    match runLines idx prfc pslash f.mtime ⟨none, m⟩ f.lines with
    | some st => parseLogs idx prfc pslash st.usage rest
    | none => none

/-- Observation side of the refinement of `parse_logs`: the same line
classification as `processLine`, but emitting the load event (if any)
instead of folding it into the usage map. -/
def extractLine (idx : ModelIndex) (prfc pslash : List Char → Option Int)
    (fileTime : Int) (c : Option Int) (line : List Char) :
    Option (Option Int × Option LogEvent) :=
  if lpre timeKey line then
    match prfc (line.drop 5) with
    | some t => some (some t, none)
    | none => some (c, none)
  else if line.length > 19 ∧ charAt line 4 = some '/' ∧ charAt line 7 = some '/' then
    match pslash (line.take 19) with
    | some t => some (some t, none)
    | none => some (c, none)
  else if lpre loaderMarker line then
    match findSub shaTok line with
    | some hashStart =>
      match sliceOpt line (hashStart + 7) (hashStart + 71) with
      | some hashChars =>
        some (c, some
          { name := (resolveHash idx hashChars).1
            size := (resolveHash idx hashChars).2
            cursor := c
            mtime := fileTime })
      | none => none
    | none => some (c, none)
  else
    some (c, none)

/-- Event extraction over one file's lines, threading the cursor. -/
def extractLines (idx : ModelIndex) (prfc pslash : List Char → Option Int) (fileTime : Int)
    (c : Option Int) : List (List Char) → Option (Option Int × List LogEvent)
  | [] => some (c, [])
  | line :: rest =>
    match extractLine idx prfc pslash fileTime c line with
    | none => none
    | some (c1, ev) =>
      match extractLines idx prfc pslash fileTime c1 rest with
      | none => none
      | some (c2, evs) => some (c2, ev.toList ++ evs)

/-- Event extraction over a whole run, resetting the cursor per file. -/
def extractAll (idx : ModelIndex) (prfc pslash : List Char → Option Int) :
    List LogFile → Option (List LogEvent)
  | [] => some []
  | f :: rest =>
    match extractLines idx prfc pslash f.mtime none f.lines with
    | none => none
    | some (_, evs) =>
      match extractAll idx prfc pslash rest with
      | none => none
      | some evs2 => some (evs ++ evs2)

/-- The load events attributed to one resolved display name. -/
def eventsFor (k : String) (evs : List LogEvent) : List LogEvent :=
  evs.filter (fun e => e.name = k)

/-- The last-used value the aggregation of `parse_logs` actually computes
for a name with events `e0 :: rest`: start from the first event's
timestamp (cursor, or the containing file's modification time when the
cursor is empty) and fold in the cursor values of the events that have
one. -/
def lastUsedSpec (e0 : LogEvent) (evs : List LogEvent) : Int :=
  evs.foldl
    (fun a e =>
      match e.cursor with
      | some t => max a t
      | none => a)
    (e0.cursor.getD e0.mtime)

/-- The last-used value asserted by claim C4: the maximum, over all of the
name's events, of the event's timestamp, the timestamp of an event being
its cursor value, or the containing file's modification time when no
timestamp line had been seen yet in that file. -/
def claimedLastUsed (evs : List LogEvent) : Option Int :=
  (evs.map (fun e => e.cursor.getD e.mtime)).max?

/-- Rust substring split `s.split(sep)` for a non-empty separator, on char
lists.  Structural recursion on a fuel argument (`s.length + 1` steps
always suffice for a non-empty separator) so that the kernel can evaluate
it. -/
def splitFuel (sep : List Char) : Nat → List Char → List (List Char)
  | 0, s => [s]
  | fuel + 1, s =>
    match findSub sep s with
    | none => [s]
    | some i => s.take i :: splitFuel sep fuel (s.drop (i + sep.length))

/-- `name.split(", ")`, the composite-display-name split used by main
(main.rs lines 234 and 237). -/
def splitComma (s : String) : List String :=
  (splitFuel ", ".data (s.data.length + 1) s.data).map String.mk

/-- Rust `str::ends_with` on ASCII strings. -/
def strEnds (s pat : String) : Bool := lpre pat.data.reverse s.data.reverse

/-- struct ModelLayer (main.rs lines 13-19). -/
structure ModelLayer where
  media_type : String
  digest : String
  size : Nat

/-- struct ModelManifest (main.rs lines 21-24). -/
structure ModelManifest where
  layers : List ModelLayer

/-- The media type marking the primary model weight layer (main.rs 132). -/
def modelMediaType : String := "application/vnd.ollama.image.model"

/-- Digest normalization (main.rs lines 134-138):
`digest.strip_prefix("sha256:").unwrap_or(&digest)`. -/
def stripSha (digest : String) : String :=
  if String.mk (digest.data.take 7) = "sha256:" then String.mk (digest.data.drop 7) else digest

/-- fn parse_manifest_path (main.rs lines 95-114).  A path is modelled as
its list of components; for a regular file `file_name()` is the last
component.  The four trailing components are registry (discarded),
namespace, model and tag; the display name is `model:tag`, prefixed with
`namespace/` unless the namespace is literally "library". -/
def parse_manifest_path (components : List String) : Option String :=
  let len := components.length
  if 4 ≤ len then
    let user := components.getD (len - 3) ""
    let model := components.getD (len - 2) ""
    let tag := components.getD (len - 1) ""
    some ((if user = "library" then "" else user ++ "/") ++ model ++ ":" ++ tag)
  else
    none

/-- The merge step of find_model_manifests (main.rs lines 141-146):
`entry(hash).or_insert_with((String::new(), 0))`, push `", "` when the
stored name is non-empty, append the new name, and overwrite the size. -/
def indexInsert (acc : ModelIndex) (hash modelName : String) (size : Nat) : ModelIndex :=
  aupdate acc hash ("", 0) fun e =>
    ((if e.1 = "" then e.1 else e.1 ++ ", ") ++ modelName, size)

/-- fn find_model_manifests (main.rs lines 116-154), over the regular
files found under the manifests glob.  Each item carries the file's path
components and the outcome of the serde JSON parse (`none` = malformed,
silently skipped).  A manifest without a model-weight layer, or whose
path has fewer than four components, contributes nothing. -/
def find_model_manifests (items : List (List String × Option ModelManifest)) : ModelIndex :=
  items.foldl
    (fun acc item =>
      match item.2 with
      | none => acc
      | some manifest =>
        match manifest.layers.find? (fun l => l.media_type = modelMediaType) with
        | none => acc
        | some layer =>
          match parse_manifest_path item.1 with
          | none => acc
          | some modelName => indexInsert acc (stripSha layer.digest) modelName layer.size)
    []

/-- The active partition of main (main.rs lines 215-217): usages whose
name does not end with "-deleted". -/
def activeOf (usage : UsageMap) : List ModelUsage :=
  (usage.map (·.2)).filter (fun m => !(strEnds m.name "-deleted"))

/-- The deleted partition of main (main.rs lines 218-220). -/
def deletedOf (usage : UsageMap) : List ModelUsage :=
  (usage.map (·.2)).filter (fun m => strEnds m.name "-deleted")

/-- Rust `Ord::cmp` on machine integers, for the sort comparators. -/
def cmpInt (a b : Int) : Ordering :=
  if a < b then .lt else if a = b then .eq else .gt

/-- Rust `Ord::cmp` on usize. -/
def cmpNat (a b : Nat) : Ordering :=
  if a < b then .lt else if a = b then .eq else .gt

/-- Rust `str::cmp`: lexicographic comparison (byte order coincides with
char order on ASCII). -/
def cmpChars : List Char → List Char → Ordering
  | [], [] => .eq
  | [], _ :: _ => .lt
  | _ :: _, [] => .gt
  | a :: as, b :: bs => if a < b then .lt else if a = b then cmpChars as bs else .gt

/-- The sort comparator of main (main.rs lines 224-228):
`b.last_used.cmp(&a.last_used).then_with(|| b.usage_count.cmp(&a.usage_count))`. -/
def usageCmp (a b : ModelUsage) : Ordering :=
  (cmpInt b.last_used a.last_used).then (cmpNat b.usage_count a.usage_count)

/-- `sort_by` sorts ascending by its comparator; the corresponding total
boolean relation is "comparator does not answer Greater". -/
def usageLeB (a b : ModelUsage) : Bool := usageCmp a b != Ordering.gt

/-- main's `models.sort_by(...)` for the active and deleted lists. -/
def sortModels (l : List ModelUsage) : List ModelUsage := l.mergeSort usageLeB

/-- The unlogged sort comparator of main (main.rs line 240):
`a.0.cmp(&b.0)`. -/
def unlogLeB (a b : String × Nat) : Bool := cmpChars a.1.data b.1.data != Ordering.gt

/-- The unlogged view of main (main.rs lines 232-239): every sub-name of
every index entry's comma-joined name, paired with the entry size, kept
when no usage's (possibly composite) name has it as an exact sub-name. -/
def unloggedOf (idx : ModelIndex) (usage : UsageMap) : List (String × Nat) :=
  ((idx.map (·.2)).flatMap (fun p => (splitComma p.1).map (fun n => (n, p.2)))).filter
    (fun p => !((usage.map (·.2)).any (fun m => (splitComma m.name).any (fun u => u = p.1))))

/-- main's `unlogged_models.sort_by(|a, b| a.0.cmp(&b.0))`. -/
def sortedUnlogged (idx : ModelIndex) (usage : UsageMap) : List (String × Nat) :=
  (unloggedOf idx usage).mergeSort unlogLeB

/-- Round the exact nonnegative fraction `num / den` to the nearest
integer, ties to even, which is how Rust's `{:.1}` formatting rounds the
value of a float. -/
def roundNearestEven (num den : Nat) : Nat :=
  let q := num / den
  let r := num % den
  if 2 * r < den then q
  else if den < 2 * r then q + 1
  else if q % 2 = 0 then q
  else q + 1

/-- Rust `format!("{:.1}", x)` for a nonnegative float `x` holding the
exact value `num / den`: one rounded decimal digit. -/
def fmt1 (num den : Nat) : String :=
  let n := roundNearestEven (10 * num) den
  toString (n / 10) ++ "." ++ toString (n % 10)

/-- The format_size closure of main (main.rs lines 243-251).  The source
computes `size as f64 / 1024.0 / 1024.0 / 1024.0` and compares with 1.0;
the embedding uses the exact rational value.  The branch decisions agree
for every u64 (scaling by a power of two is exact in f64 and the
u64-to-f64 rounding never crosses the 1 GiB boundary), and both sizes the
claims evaluate are exactly representable. -/
def format_size (size : Nat) : String :=
  if 1 ≤ (size : ℚ) / (1024 * 1024 * 1024) then
    fmt1 size (1024 * 1024 * 1024) ++ " GB"
  else
    fmt1 size (1024 * 1024) ++ " MB"

/-- The cursor behaviour asserted by claim C2 (as amended): the cursor
takes a parsed value exactly on a `time=` line whose remainder parses, or
on a line strictly longer than 19 bytes with slashes at positions 4 and 7
whose first 19 bytes parse; every other line leaves it unchanged. -/
def cursorSpec (prfc pslash : List Char → Option Int) (c : Option Int) (line : List Char) :
    Option Int :=
  if lpre timeKey line then
    match prfc (line.drop 5) with
    | some t => some t
    | none => c
  else if line.length > 19 ∧ charAt line 4 = some '/' ∧ charAt line 7 = some '/' then
    match pslash (line.take 19) with
    | some t => some t
    | none => c
  else c

/-- A lowercase hexadecimal digit, as in the spec's
`sha256-<64 lowercase hex characters>` token description. -/
def isLowerHex (ch : Char) : Bool :=
  (('0' ≤ ch && ch ≤ '9') || ('a' ≤ ch && ch ≤ 'f'))

/-- A parser that never succeeds, standing in for the chrono parsers on
inputs where their result does not matter. -/
def noParse : List Char → Option Int := fun _ => none

/-- Concrete input for claim C1: an otherwise-matching loader line whose
sha256- token carries only 3 bytes instead of 64. -/
def c1line : List Char := "llama_model_loader: loaded meta data from sha256-abc".data

/-- Concrete input for claim C2: a line that is exactly the 19-byte
slash-date prefix and nothing else. -/
def line19 : List Char := "2024/01/02 03:04:05".data

/-- A slash parser recognising exactly the 19-byte date of `line19`. -/
def p19 : List Char → Option Int :=
  fun s => if s = "2024/01/02 03:04:05".data then some 7 else none

/-- Concrete input for claim C3: a line that contains the loader marker and
a well-formed sha256- token, but does not start with the marker. -/
def c3line : List Char :=
  "x llama_model_loader: loaded meta data sha256-".data ++ List.replicate 64 'a'

/-- A loader line with a well-formed sha256- token of 64 times 'b'. -/
def c3wline : List Char := loaderMarker ++ " sha256-".data ++ List.replicate 64 'b'

/-- A loader line with a sha256- token of 64 times 'c'. -/
def evc : List Char := loaderMarker ++ " sha256-".data ++ List.replicate 64 'c'

/-- The fallback display name for the hash of `evc` (absent from any
index used here). -/
def cname : String := "cccccccc...-deleted"

/-- An rfc3339 stand-in mapping the values A, B, C of `time=` lines to the
instants 2, 1, 3. -/
def w4prfc : List Char → Option Int :=
  fun s =>
    if s = "A".data then some 2
    else if s = "B".data then some 1
    else if s = "C".data then some 3 else none

/-- Claim C4's witness run: one file, load events at cursor instants
2, 1, 3 (timestamps T2, T1, T3 with T1 < T2 < T3 in file order T2, T1, T3). -/
def w4file : LogFile :=
  ⟨100, ["time=A".data, evc, "time=B".data, evc, "time=C".data, evc]⟩

/-- The usage map `parse_logs` produces on `w4file`. -/
def w4map : UsageMap :=
  [(cname, { name := cname, last_used := 3, usage_count := 3, size := 0 })]

/-- The load events of `w4file`. -/
def w4evs : List LogEvent :=
  [⟨cname, 0, some 2, 100⟩, ⟨cname, 0, some 1, 100⟩, ⟨cname, 0, some 3, 100⟩]

/-- An rfc3339 stand-in mapping the value A to the instant 1. -/
def c4xprfc : List Char → Option Int :=
  fun s => if s = "A".data then some 1 else none

/-- Claim C4's counterexample, first file: one event at cursor instant 1. -/
def c4xf1 : LogFile := ⟨100, ["time=A".data, evc]⟩

/-- Claim C4's counterexample, second file: modification time 5, one event
before any timestamp line. -/
def c4xf2 : LogFile := ⟨5, [evc]⟩

/-- Concrete index for claim C5: one hash with a comma-joined double name. -/
def exIdx : ModelIndex := [("h1", ("llama3:8b, llama3:latest", 42))]

/-- Concrete usage map for claim C5: only llama3:8b was logged. -/
def exUsage : UsageMap :=
  [("llama3:8b", { name := "llama3:8b", last_used := 0, usage_count := 1, size := 42 })]

/-- A loader line with the sha256- token of 8 copies of deadbeef. -/
def w7line : List Char :=
  loaderMarker ++ " sha256-".data ++
    "deadbeefdeadbeefdeadbeefdeadbeefdeadbeefdeadbeefdeadbeefdeadbeef".data

example : lpre "ab".data "abc".data = true := by decide
example : findSub "b".data "abcb".data = some 1 := by decide
example : sliceOpt "abcdef".data 2 4 = some "cd".data := by decide
example : sliceOpt "abc".data 2 4 = none := by decide
example : splitComma "llama3:8b, llama3:latest" = ["llama3:8b", "llama3:latest"] := by decide
example : splitComma "a" = ["a"] := by decide
example : strEnds "deadbeef...-deleted" "-deleted" = true := by decide
example : strEnds "llama3:8b" "-deleted" = false := by decide
example : fmt1 1073741824 (1024 * 1024 * 1024) = "1.0" := by decide
example : fmt1 1073741823 (1024 * 1024) = "1024.0" := by decide
example : parse_manifest_path ["m", "registry.ollama.ai", "library", "llama3", "8b"] =
    some "llama3:8b" := by decide
example : parse_manifest_path ["m", "registry.ollama.ai", "alice", "custom", "v1"] =
    some "alice/custom:v1" := by decide
example : stripSha "sha256:abc" = "abc" := by decide
example : stripSha "abc" = "abc" := by decide

/-! ## Helper lemmas about the association-list operations -/

theorem alookup_aupdate {α : Type} (m : List (String × α)) (n : String) (init : α)
    (f : α → α) (k : String) :
    alookup k (aupdate m n init f) =
      if n = k then some (f ((alookup n m).getD init)) else alookup k m := by
  induction m with
  | nil =>
    by_cases h : n = k <;> simp [aupdate, alookup, h]
  | cons hd tl ih =>
    obtain ⟨k1, v1⟩ := hd
    by_cases h1 : k1 = n
    · subst h1
      by_cases h2 : k1 = k
      · subst h2
        simp [aupdate, alookup]
      · simp [aupdate, alookup, h2]
    · by_cases h2 : k1 = k
      · subst h2
        have hnk : ¬ n = k1 := fun h => h1 h.symm
        simp [aupdate, alookup, h1, hnk]
      · simp [aupdate, alookup, h1, h2, ih]

theorem aupdate_keys {α : Type} (m : List (String × α)) (n : String) (init : α) (f : α → α) :
    (aupdate m n init f).map Prod.fst =
      if n ∈ m.map Prod.fst then m.map Prod.fst else m.map Prod.fst ++ [n] := by
  induction m with
  | nil => simp [aupdate]
  | cons hd tl ih =>
    obtain ⟨k1, v1⟩ := hd
    by_cases h1 : k1 = n
    · subst h1
      simp [aupdate]
    · have h1n : ¬ n = k1 := fun h => h1 h.symm
      simp only [aupdate, if_neg h1, List.map_cons, List.mem_cons, ih]
      by_cases h2 : n ∈ tl.map Prod.fst <;> simp [h2, h1n]

theorem aupdate_keys_nodup {α : Type} (m : List (String × α)) (n : String) (init : α)
    (f : α → α) (h : (m.map Prod.fst).Nodup) : ((aupdate m n init f).map Prod.fst).Nodup := by
  rw [aupdate_keys]
  by_cases h2 : n ∈ m.map Prod.fst
  · simpa [h2]
  · simpa [h2] using List.Nodup.append h (List.nodup_singleton n) (by simpa using h2)

theorem aupdate_pointwise {α : Type} (P : String → α → Prop) (m : List (String × α))
    (n : String) (init : α) (f : α → α)
    (hm : ∀ p ∈ m, P p.1 p.2) (hinit : P n (f init)) (hf : ∀ u, P n u → P n (f u)) :
    ∀ p ∈ aupdate m n init f, P p.1 p.2 := by
  induction m with
  | nil =>
    intro p hp
    simp only [aupdate, List.mem_singleton] at hp
    subst hp
    exact hinit
  | cons hd tl ih =>
    obtain ⟨k1, v1⟩ := hd
    by_cases h1 : k1 = n
    · subst h1
      intro p hp
      simp only [aupdate, if_pos rfl] at hp
      rcases List.mem_cons.mp hp with h | hp2
      · rw [h]
        exact hf v1 (hm (k1, v1) (by simp))
      · exact hm p (List.mem_cons_of_mem _ hp2)
    · intro p hp
      simp only [aupdate, if_neg h1] at hp
      rcases List.mem_cons.mp hp with h | hp2
      · rw [h]
        exact hm (k1, v1) (by simp)
      · exact ih (fun q hq => hm q (List.mem_cons_of_mem _ hq)) p hp2

/-! ## Helper lemmas about string primitives -/

/-! ## The marker branch of the line loop -/

theorem lpre_iff_append (p s : List Char) : lpre p s = true ↔ ∃ t, s = p ++ t := by
  induction p generalizing s with
  | nil => simp [lpre]
  | cons a as ih =>
    cases s with
    | nil => simp [lpre]
    | cons b bs =>
      simp only [lpre, Bool.and_eq_true, decide_eq_true_eq, ih, List.cons_append, List.cons.injEq]
      constructor
      · rintro ⟨rfl, t, rfl⟩
        exact ⟨t, rfl, rfl⟩
      · rintro ⟨t, rfl, rfl⟩
        exact ⟨rfl, t, rfl⟩

theorem lpre_self_append (p t : List Char) : lpre p (p ++ t) = true := by
  induction p with
  | nil => simp [lpre]
  | cons a as ih => simp [lpre, ih]

theorem charAt_marker_append (t : List Char) : charAt (loaderMarker ++ t) 4 = some 'a' := rfl

theorem lpre_timeKey_marker (t : List Char) : lpre timeKey (loaderMarker ++ t) = false := rfl

theorem processLine_marker_eq (idx : ModelIndex) (prfc pslash : List Char → Option Int)
    (ft : Int) (c : Option Int) (m : UsageMap) (line : List Char)
    (h : lpre loaderMarker line = true) :
    processLine idx prfc pslash ft ⟨c, m⟩ line =
      match findSub shaTok line with
      | some hs =>
        match sliceOpt line (hs + 7) (hs + 71) with
        | some hc =>
          some ⟨c, bumpUsage m ⟨(resolveHash idx hc).1, (resolveHash idx hc).2, c, ft⟩⟩
        | none => none
      | none => some ⟨c, m⟩ := by
  obtain ⟨t, rfl⟩ := (lpre_iff_append _ _).mp h
  have h1 : ¬ (lpre timeKey (loaderMarker ++ t) = true) := by
    simp [lpre_timeKey_marker]
  have h2 : ¬ ((loaderMarker ++ t).length > 19 ∧ charAt (loaderMarker ++ t) 4 = some '/' ∧
      charAt (loaderMarker ++ t) 7 = some '/') := by
    rintro ⟨-, h4, -⟩
    rw [charAt_marker_append] at h4
    simp at h4
  simp only [processLine, if_neg h1, if_neg h2, if_pos h]

theorem processLine_not_marker_usage (idx : ModelIndex) (prfc pslash : List Char → Option Int)
    (ft : Int) (c : Option Int) (m : UsageMap) (line : List Char)
    (h : lpre loaderMarker line = false) (st2 : LineState)
    (hp : processLine idx prfc pslash ft ⟨c, m⟩ line = some st2) : st2.usage = m := by
  simp only [processLine] at hp
  repeat' split at hp
  all_goals first
    | (obtain rfl := Option.some.inj hp; rfl)
    | (exact absurd (by assumption : lpre loaderMarker line = true) (by simp [h]))

/-! ## Refinement: the line loop is the fold of its load events -/

theorem processLine_eq_extract (idx : ModelIndex) (prfc pslash : List Char → Option Int)
    (ft : Int) (st : LineState) (line : List Char) :
    processLine idx prfc pslash ft st line =
      (extractLine idx prfc pslash ft st.lastTs line).map
        (fun p =>
          { lastTs := p.1
            usage := match p.2 with
                     | some e => bumpUsage st.usage e
                     | none => st.usage }) := by
  obtain ⟨c, m⟩ := st
  simp only [processLine, extractLine]
  repeat' split
  all_goals rfl

theorem runLines_eq_extract (idx : ModelIndex) (prfc pslash : List Char → Option Int)
    (ft : Int) (c : Option Int) (m : UsageMap) (lines : List (List Char)) :
    runLines idx prfc pslash ft ⟨c, m⟩ lines =
      (extractLines idx prfc pslash ft c lines).map
        (fun p => { lastTs := p.1, usage := p.2.foldl bumpUsage m }) := by
  induction lines generalizing c m with
  | nil => rfl
  | cons line rest ih =>
    rw [runLines, extractLines, processLine_eq_extract]
    cases hL : extractLine idx prfc pslash ft c line with
    | none => rfl
    | some p =>
      obtain ⟨c1, ev⟩ := p
      simp only [Option.map_some']
      rw [ih]
      cases hR : extractLines idx prfc pslash ft c1 rest with
      | none => rfl
      | some q =>
        obtain ⟨c2, evs⟩ := q
        cases ev <;> simp [List.foldl_append, Option.toList]

theorem parseLogs_eq_extract (idx : ModelIndex) (prfc pslash : List Char → Option Int)
    (m : UsageMap) (files : List LogFile) :
    parseLogs idx prfc pslash m files =
      (extractAll idx prfc pslash files).map (fun evs => evs.foldl bumpUsage m) := by
  induction files generalizing m with
  | nil => rfl
  | cons f rest ih =>
    rw [parseLogs, extractAll, runLines_eq_extract]
    cases hE : extractLines idx prfc pslash f.mtime none f.lines with
    | none => rfl
    | some p =>
      obtain ⟨c2, evs⟩ := p
      simp only [Option.map_some']
      rw [ih]
      cases extractAll idx prfc pslash rest <;> simp [List.foldl_append]

theorem lastUsedSpec_concat (e0 e : LogEvent) (l : List LogEvent) :
    lastUsedSpec e0 (l ++ [e]) =
      match e.cursor with
      | some t => max (lastUsedSpec e0 l) t
      | none => lastUsedSpec e0 l := by
  simp only [lastUsedSpec, List.foldl_concat]

/-- The shape of the usage map built by folding the load events: for each
key, the record holds that name, the event count, the first event's size,
and the `lastUsedSpec` timestamp. -/
theorem alookup_foldl_bump (evs : List LogEvent) (k : String) :
    alookup k (evs.foldl bumpUsage []) =
      match eventsFor k evs with
      | [] => none
      | e0 :: rest =>
        some { name := k
               last_used := lastUsedSpec e0 (e0 :: rest)
               usage_count := rest.length + 1
               size := e0.size } := by
  induction evs using List.reverseRecOn with
  | nil => rfl
  | append_singleton l e ih =>
    obtain ⟨enm, esz, ecur, emt⟩ := e
    rw [List.foldl_concat]
    simp only [bumpUsage]
    rw [alookup_aupdate]
    by_cases hk : enm = k
    · subst hk
      rw [if_pos rfl]
      have hev : eventsFor enm (l ++ [⟨enm, esz, ecur, emt⟩]) =
          eventsFor enm l ++ [⟨enm, esz, ecur, emt⟩] := by
        simp [eventsFor, List.filter_append]
      rw [hev, ih]
      cases hcase : eventsFor enm l with
      | nil =>
        cases ecur <;> simp [lastUsedSpec, lt_irrefl]
      | cons e0 rest =>
        cases ecur with
        | none =>
          have hcat : lastUsedSpec e0 (e0 :: (rest ++ [⟨enm, esz, none, emt⟩])) =
              lastUsedSpec e0 (e0 :: rest) := by
            rw [← List.cons_append, lastUsedSpec_concat]
          simp [hcat]
        | some t =>
          have hcat : lastUsedSpec e0 (e0 :: (rest ++ [⟨enm, esz, some t, emt⟩])) =
              max (lastUsedSpec e0 (e0 :: rest)) t := by
            rw [← List.cons_append, lastUsedSpec_concat]
          simp only [Option.getD_some, List.cons_append, hcat]
          split
          · next h =>
            simp [ModelUsage.mk.injEq, max_eq_right (le_of_lt h)]
          · next h =>
            simp [ModelUsage.mk.injEq, max_eq_left (not_lt.mp h)]
    · rw [if_neg hk, ih]
      have hev : eventsFor k (l ++ [⟨enm, esz, ecur, emt⟩]) = eventsFor k l := by
        simp [eventsFor, List.filter_append, hk]
      rw [hev]

/-! ## Claims C1, C2, C3 -/

/-- Claim C1: the claim states that a loader line whose sha256- token has
fewer than 64 bytes after it is ignored.  The code instead slices
`line[hash_start+7 .. hash_start+71]` unconditionally, which panics on
such a line: on the concrete truncated line the step function reaches the
marker branch, finds the token at byte 42, and aborts (`none`) because
42 + 71 exceeds the line length of 52, rather than leaving the usage map
unchanged. -/
theorem claim_C1_truncated_token_panics :
    lpre loaderMarker c1line = true ∧
    findSub shaTok c1line = some 42 ∧
    c1line.length = 52 ∧
    processLine [] noParse noParse 0 ⟨none, []⟩ c1line = none := by decide

/-- Claim C2 counterexample: a line consisting of exactly the 19-byte
slash-date prefix and nothing else (with slashes at positions 4 and 7 and
a slash parser that accepts its 19-byte prefix) does not update the
cursor, because the code requires `line.len() > 19` strictly; the claim
says this very line updates the cursor. -/
theorem claim_C2_exact_slash_line_not_cursor_update :
    (line19.length = 19 ∧ charAt line19 4 = some '/' ∧ charAt line19 7 = some '/' ∧
      p19 (line19.take 19) = some 7) ∧
    processLine [] noParse p19 0 ⟨none, []⟩ line19 = some ⟨none, []⟩ := by decide

/-- Claim C2 (amended): whenever the line step returns, the new cursor is
exactly `cursorSpec`: a parsed value on a `time=` line whose remainder
parses as rfc3339, or on a line strictly longer than 19 bytes with
slashes at positions 4 and 7 whose 19-byte prefix parses; unchanged on
every other line. -/
theorem claim_C2_timestamp_cursor (idx : ModelIndex) (prfc pslash : List Char → Option Int)
    (ft : Int) (c : Option Int) (m : UsageMap) (line : List Char) :
    (processLine idx prfc pslash ft ⟨c, m⟩ line).map LineState.lastTs =
      (processLine idx prfc pslash ft ⟨c, m⟩ line).map (fun _ => cursorSpec prfc pslash c line) := by
  simp only [processLine, cursorSpec]
  repeat' split
  all_goals rfl

/-- Claim C3 counterexample: the line `c3line` contains the loader marker
(at offset 2) and a well-formed `sha256-` + 64 lowercase hex token, yet
the code records no load event for it (the usage map stays empty),
because the code requires the line to START with the marker, not merely
contain it. -/
theorem claim_C3_contains_marker_not_event :
    (findSub loaderMarker c3line).isSome = true ∧
    findSub shaTok c3line = some 39 ∧
    sliceOpt c3line 46 110 = some (List.replicate 64 'a') ∧
    (List.replicate 64 'a').all isLowerHex = true ∧
    processLine [] noParse noParse 0 ⟨none, []⟩ c3line = some ⟨none, []⟩ := by decide

/-- Claim C3 (amended): a line is a load event exactly when it starts with
the loader marker and carries `sha256-` with at least 64 bytes after it;
the hash is the 64 bytes after the first `sha256-` occurrence, taken
verbatim (not validated as hex); a marker line without the token is
skipped; a marker line with a truncated token aborts; and no line that
does not start with the marker changes the usage map. -/
theorem claim_C3_event_recognition (idx : ModelIndex) (prfc pslash : List Char → Option Int)
    (ft : Int) (c : Option Int) (m : UsageMap) (line : List Char) :
    (lpre loaderMarker line = true →
      processLine idx prfc pslash ft ⟨c, m⟩ line =
        match findSub shaTok line with
        | some hs =>
          match sliceOpt line (hs + 7) (hs + 71) with
          | some hc =>
            some ⟨c, bumpUsage m ⟨(resolveHash idx hc).1, (resolveHash idx hc).2, c, ft⟩⟩
          | none => none
        | none => some ⟨c, m⟩) ∧
    (lpre loaderMarker line = false →
      ∀ st2, processLine idx prfc pslash ft ⟨c, m⟩ line = some st2 → st2.usage = m) :=
  ⟨fun h => processLine_marker_eq idx prfc pslash ft c m line h,
   fun h st2 hp => processLine_not_marker_usage idx prfc pslash ft c m line h st2 hp⟩

/-- Witness for claim C3: on a concrete marker line with a 64-byte token
of b characters, the step function creates the fallback usage entry. -/
theorem claim_C3_event_recognition_witness :
    processLine [] noParse noParse 5 ⟨none, []⟩ c3wline =
      some ⟨none, [("bbbbbbbb...-deleted",
        { name := "bbbbbbbb...-deleted", last_used := 5, usage_count := 1, size := 0 })]⟩ := by
  have h := (claim_C3_event_recognition [] noParse noParse 5 none [] c3wline).1 (by decide)
  exact h.trans (by decide)

/-! ## Claims C4, C5, C6 -/

/-- Claim C4 (amended): for every resolved name with events `e0 :: rest`
in a run, the final entry has count `rest.length + 1` (the number of load
events, hence at least 1) and last-used `lastUsedSpec`: the maximum of
the first event's timestamp (cursor, or the containing file's
modification time when no timestamp line had been seen in that file) and
the cursor values of the events that have one — a later event with no
cursor contributes nothing, its file's modification time is not
consulted. -/
theorem claim_C4_usage_aggregation (idx : ModelIndex) (prfc pslash : List Char → Option Int)
    (files : List LogFile) (usage : UsageMap) (evs : List LogEvent) (k : String)
    (e0 : LogEvent) (rest : List LogEvent)
    (hrun : parseLogs idx prfc pslash [] files = some usage)
    (hext : extractAll idx prfc pslash files = some evs)
    (hev : eventsFor k evs = e0 :: rest) :
    alookup k usage =
      some { name := k, last_used := lastUsedSpec e0 (e0 :: rest),
             usage_count := rest.length + 1, size := e0.size } := by
  rw [parseLogs_eq_extract, hext] at hrun
  obtain rfl := Option.some.inj hrun
  rw [alookup_foldl_bump, hev]

/-- Claim C4 counterexample: two files, the first recording one event at
cursor instant 1, the second (modification time 5) one event before any
timestamp line.  The claim's reading (an event's timestamp is the cursor,
or the file's modification time when none has been seen in that file)
yields maximum 5, but the code leaves last-used at 1: the
modification-time fallback only enters through the entry-creating event. -/
theorem claim_C4_counterexample :
    (parseLogs [] c4xprfc noParse [] [c4xf1, c4xf2]).bind (alookup cname) =
      some { name := cname, last_used := 1, usage_count := 2, size := 0 } ∧
    (extractAll [] c4xprfc noParse [c4xf1, c4xf2]).map
        (fun evs => claimedLastUsed (eventsFor cname evs)) = some (some 5) ∧
    (1 : Int) ≠ 5 :=
  ⟨by decide, by decide, by decide⟩

/-- Witness for claim C4, which is also the spec's T1 < T2 < T3 example:
one file with events at cursor instants 2, 1, 3 in that order gives
count 3 and last-used 3. -/
theorem claim_C4_usage_aggregation_witness :
    alookup cname w4map =
      some { name := cname, last_used := 3, usage_count := 3, size := 0 } := by
  have h := claim_C4_usage_aggregation [] w4prfc noParse [w4file] w4map w4evs cname
      ⟨cname, 0, some 2, 100⟩ [⟨cname, 0, some 1, 100⟩, ⟨cname, 0, some 3, 100⟩]
      (by decide) (by decide) (by decide)
  exact h.trans (by decide)

/-- Claim C5: a pair (n, s) is in the unlogged view exactly when n is a
sub-name (splitting comma-joined composites) of some index entry with
size s, and n is not an exact sub-name of any usage's (possibly
composite) name; on the concrete example, index name
"llama3:8b, llama3:latest" with a usage named exactly "llama3:8b" puts
"llama3:latest" in the unlogged view and keeps "llama3:8b" out. -/
theorem claim_C5_unlogged_membership :
    (∀ (idx : ModelIndex) (usage : UsageMap) (n : String) (s : Nat),
      ((n, s) ∈ unloggedOf idx usage ↔
        ((∃ p ∈ idx.map Prod.snd, n ∈ splitComma p.1 ∧ s = p.2) ∧
          ∀ u ∈ usage.map Prod.snd, n ∉ splitComma (ModelUsage.name u)))) ∧
    ("llama3:latest", 42) ∈ unloggedOf exIdx exUsage ∧
    ¬ (("llama3:8b", 42) ∈ unloggedOf exIdx exUsage) := by
  refine ⟨?_, by decide, by decide⟩
  intro idx usage n s
  simp only [unloggedOf, List.mem_filter, List.mem_flatMap, List.mem_map,
    Bool.not_eq_true', List.any_eq_false, List.any_eq_true, decide_eq_true_eq,
    Prod.mk.injEq, not_exists, not_and]
  constructor
  · rintro ⟨⟨p, hp, n2, hn2, rfl, rfl⟩, hflt⟩
    exact ⟨⟨p, hp, hn2, rfl⟩, fun u hu hn => (hflt u hu) n2 hn rfl⟩
  · rintro ⟨⟨p, hp, hn, rfl⟩, hnot⟩
    exact ⟨⟨p, hp, n, hn, rfl, rfl⟩, fun u hu n2 hn2 he => hnot u hu (he ▸ hn2)⟩

/-- Claim C6: inserting a manifest whose hash is already indexed under a
non-empty name appends the new display name after a comma separator and
overwrites the stored size; two manifests with the same hash named
llama3:8b then llama3:latest (sizes 999 then 1001) produce the single
entry ("llama3:8b, llama3:latest", 1001). -/
theorem claim_C6_manifest_merge :
    (∀ (acc : ModelIndex) (hash old : String) (sz0 : Nat) (modelName : String) (size : Nat),
      alookup hash acc = some (old, sz0) → old ≠ "" →
      alookup hash (indexInsert acc hash modelName size) =
        some (old ++ ", " ++ modelName, size)) ∧
    find_model_manifests
      [(["manifests", "registry.ollama.ai", "library", "llama3", "8b"],
        some ⟨[⟨modelMediaType, "sha256:aaaa", 999⟩]⟩),
       (["manifests", "registry.ollama.ai", "library", "llama3", "latest"],
        some ⟨[⟨modelMediaType, "sha256:aaaa", 1001⟩]⟩)] =
      [("aaaa", ("llama3:8b, llama3:latest", 1001))] := by
  constructor
  · intro acc hash old sz0 modelName size hl hne
    rw [indexInsert, alookup_aupdate, if_pos rfl, hl]
    simp [hne, String.append_assoc]
  · decide

/-- Witness for claim C6: merging llama3:latest (size 9) into an index
that maps hash h to ("llama3:8b", 7). -/
theorem claim_C6_manifest_merge_witness :
    alookup "h" (indexInsert [("h", ("llama3:8b", 7))] "h" "llama3:latest" 9) =
      some ("llama3:8b, llama3:latest", 9) := by
  have h := claim_C6_manifest_merge.1 [("h", ("llama3:8b", 7))] "h" "llama3:8b" 7
      "llama3:latest" 9 (by decide) (by decide)
  exact h.trans (by decide)

/-! ## Claim C7 -/

/-- Claim C7: a load event whose 64-byte hash is absent from the index is
folded in under the synthetic name formed by the first 8 bytes of the
hash followed by "...-deleted" with size 0: the line step performs exactly
that fold; a fresh entry starts with count 1, size 0 and the current
cursor (or file-time) timestamp; an existing entry has its count
incremented with name and size untouched. -/
theorem claim_C7_deleted_fallback (idx : ModelIndex) (prfc pslash : List Char → Option Int)
    (ft : Int) (c : Option Int) (m : UsageMap) (line : List Char) (hs : Nat) (hc : List Char)
    (hmark : lpre loaderMarker line = true)
    (hfind : findSub shaTok line = some hs)
    (hslice : sliceOpt line (hs + 7) (hs + 71) = some hc)
    (habs : alookup (String.mk hc) idx = none) :
    processLine idx prfc pslash ft ⟨c, m⟩ line =
      some ⟨c, bumpUsage m ⟨String.mk (hc.take 8) ++ "...-deleted", 0, c, ft⟩⟩ ∧
    (alookup (String.mk (hc.take 8) ++ "...-deleted") m = none →
      alookup (String.mk (hc.take 8) ++ "...-deleted")
          (bumpUsage m ⟨String.mk (hc.take 8) ++ "...-deleted", 0, c, ft⟩) =
        some { name := String.mk (hc.take 8) ++ "...-deleted", last_used := c.getD ft,
               usage_count := 1, size := 0 }) ∧
    (∀ u, alookup (String.mk (hc.take 8) ++ "...-deleted") m = some u →
      ∃ u2, alookup (String.mk (hc.take 8) ++ "...-deleted")
          (bumpUsage m ⟨String.mk (hc.take 8) ++ "...-deleted", 0, c, ft⟩) = some u2 ∧
        u2.usage_count = u.usage_count + 1 ∧ u2.name = u.name ∧ u2.size = u.size) := by
  refine ⟨?_, ?_, ?_⟩
  · rw [processLine_marker_eq idx prfc pslash ft c m line hmark]
    simp [hfind, hslice, resolveHash, habs]
  · intro hnone
    simp only [bumpUsage]
    rw [alookup_aupdate, if_pos rfl, hnone]
    cases c <;> simp [lt_irrefl]
  · intro u hu
    simp only [bumpUsage]
    rw [alookup_aupdate, if_pos rfl, hu]
    refine ⟨_, rfl, ?_, ?_, ?_⟩ <;> cases c <;> simp <;> split <;> simp

/-- Witness for claim C7, the spec's deadbeef example: a load event whose
hash is 8 copies of deadbeef and absent from the (empty) index yields the
entry deadbeef...-deleted with size 0 and count 1. -/
theorem claim_C7_deleted_fallback_witness :
    alookup "deadbeef...-deleted"
        (bumpUsage [] ⟨String.mk (("deadbeefdeadbeefdeadbeefdeadbeefdeadbeefdeadbeefdeadbeefdeadbeef").data.take 8) ++ "...-deleted", 0, none, 9⟩) =
      some { name := "deadbeef...-deleted", last_used := 9, usage_count := 1, size := 0 } := by
  have h := (claim_C7_deleted_fallback [] noParse noParse 9 none [] w7line 37
      ("deadbeefdeadbeefdeadbeefdeadbeefdeadbeefdeadbeefdeadbeefdeadbeef").data
      (by decide) (by decide) (by decide) (by decide)).2.1 (by decide)
  exact (by decide : alookup "deadbeef...-deleted"
        (bumpUsage [] ⟨String.mk (("deadbeefdeadbeefdeadbeefdeadbeefdeadbeefdeadbeefdeadbeefdeadbeef").data.take 8) ++ "...-deleted", 0, none, 9⟩) =
      alookup (String.mk (("deadbeefdeadbeefdeadbeefdeadbeefdeadbeefdeadbeefdeadbeefdeadbeef").data.take 8) ++ "...-deleted")
        (bumpUsage [] ⟨String.mk (("deadbeefdeadbeefdeadbeefdeadbeefdeadbeefdeadbeefdeadbeefdeadbeef").data.take 8) ++ "...-deleted", 0, none, 9⟩)).trans
    (h.trans (by decide))

/-! ## Claim C8: sorting -/

theorem usageLeB_iff (a b : ModelUsage) :
    usageLeB a b = true ↔
      (b.last_used < a.last_used ∨
        (b.last_used = a.last_used ∧ b.usage_count ≤ a.usage_count)) := by
  simp only [usageLeB, usageCmp, cmpInt, cmpNat]
  rcases lt_trichotomy b.last_used a.last_used with h | h | h
  · simp [h, Ordering.then]
    decide
  · rcases lt_trichotomy b.usage_count a.usage_count with h2 | h2 | h2
    · simp [h, h2, Ordering.then, lt_irrefl, le_of_lt h2]
      decide
    · simp [h, h2, Ordering.then, lt_irrefl, le_refl]
      decide
    · have h3 : ¬ b.usage_count ≤ a.usage_count := not_le.mpr h2
      have h4 : ¬ b.usage_count < a.usage_count := lt_asymm h2
      have h5 : ¬ b.usage_count = a.usage_count := ne_of_gt h2
      simp [h, h3, h4, h5, Ordering.then, lt_irrefl]
      decide
  · have h3 : ¬ b.last_used < a.last_used := lt_asymm h
    have h4 : ¬ b.last_used = a.last_used := ne_of_gt h
    simp [h3, h4, Ordering.then]
    decide

theorem usageLeB_trans (a b c : ModelUsage) (h1 : usageLeB a b = true)
    (h2 : usageLeB b c = true) : usageLeB a c = true := by
  rw [usageLeB_iff] at h1 h2 ⊢
  omega

theorem usageLeB_total (a b : ModelUsage) : (usageLeB a b || usageLeB b a) = true := by
  rw [Bool.or_eq_true, usageLeB_iff, usageLeB_iff]
  omega

theorem cmpChars_gt_iff (a b : List Char) :
    cmpChars a b = Ordering.gt ↔ List.Lex (· < ·) b a := by
  induction a generalizing b with
  | nil =>
    cases b with
    | nil =>
      constructor
      · intro h
        exact absurd h (by decide)
      · intro h
        exact absurd h (List.Lex.not_nil_right _ _)
    | cons y ys =>
      constructor
      · intro h
        simp [cmpChars] at h
      · intro h
        exact absurd h (List.Lex.not_nil_right _ _)
  | cons x xs ih =>
    cases b with
    | nil =>
      constructor
      · intro _
        exact List.Lex.nil
      · intro _
        rfl
    | cons y ys =>
      simp only [cmpChars]
      split_ifs with h1 h2
      · constructor
        · intro h
          exact absurd h (by decide)
        · intro h
          cases h with
          | cons h3 => exact absurd h1 (lt_irrefl _)
          | rel h3 => exact absurd h1 (lt_asymm h3)
      · subst h2
        constructor
        · intro h
          exact List.Lex.cons ((ih ys).mp h)
        · intro h
          cases h with
          | cons h3 => exact (ih ys).mpr h3
          | rel h3 => exact absurd h3 (lt_irrefl x)
      · have hyx : y < x := lt_of_le_of_ne (not_lt.mp h1) (fun h => h2 h.symm)
        constructor
        · intro _
          exact List.Lex.rel hyx
        · intro _
          rfl

theorem unlogLeB_iff (a b : String × Nat) : unlogLeB a b = true ↔ a.1 ≤ b.1 := by
  have hlt : b.1 < a.1 ↔ List.Lex (· < ·) b.1.data a.1.data := by
    rw [String.lt_iff_toList_lt]
    exact ⟨fun h => h, fun h => h⟩
  constructor
  · intro h
    rw [← not_lt]
    intro hba
    have hgt : cmpChars a.1.data b.1.data = Ordering.gt :=
      (cmpChars_gt_iff _ _).mpr (hlt.mp hba)
    simp only [unlogLeB, hgt] at h
    exact absurd h (by decide)
  · intro h
    simp only [unlogLeB]
    cases hcc : cmpChars a.1.data b.1.data with
    | lt => rfl
    | eq => rfl
    | gt =>
      exact absurd (hlt.mpr ((cmpChars_gt_iff _ _).mp hcc)) (not_lt.mpr h)

theorem unlogLeB_trans (a b c : String × Nat) (h1 : unlogLeB a b = true)
    (h2 : unlogLeB b c = true) : unlogLeB a c = true := by
  rw [unlogLeB_iff] at h1 h2 ⊢
  exact le_trans h1 h2

theorem unlogLeB_total (a b : String × Nat) : (unlogLeB a b || unlogLeB b a) = true := by
  rw [Bool.or_eq_true, unlogLeB_iff, unlogLeB_iff]
  exact le_total a.1 b.1

/-- Claim C8: the active and deleted report lists are sorted by last-used
descending with ties broken by usage count descending, and the unlogged
list is sorted by name ascending. -/
theorem claim_C8_report_sorting (idx : ModelIndex) (usage : UsageMap) :
    List.Pairwise
      (fun a b => b.last_used < a.last_used ∨
        (b.last_used = a.last_used ∧ b.usage_count ≤ a.usage_count))
      (sortModels (activeOf usage)) ∧
    List.Pairwise
      (fun a b => b.last_used < a.last_used ∨
        (b.last_used = a.last_used ∧ b.usage_count ≤ a.usage_count))
      (sortModels (deletedOf usage)) ∧
    List.Pairwise (fun a b => a.1 ≤ b.1) (sortedUnlogged idx usage) := by
  refine ⟨?_, ?_, ?_⟩
  · exact (List.sorted_mergeSort (fun a b c => usageLeB_trans a b c)
      usageLeB_total (activeOf usage)).imp (fun h => (usageLeB_iff _ _).mp h)
  · exact (List.sorted_mergeSort (fun a b c => usageLeB_trans a b c)
      usageLeB_total (deletedOf usage)).imp (fun h => (usageLeB_iff _ _).mp h)
  · exact (List.sorted_mergeSort (fun a b c => unlogLeB_trans a b c)
      unlogLeB_total (unloggedOf idx usage)).imp (fun h => (unlogLeB_iff _ _).mp h)

/-! ## Claim C9: size formatting -/

/-- Claim C9: the size formatter uses binary units and renders in GB
exactly when the size is at least one GiB (1073741824 bytes) and in MB
otherwise; 1073741824 renders as "1.0 GB" and 1073741823 in MB (as
"1024.0 MB"). -/
theorem claim_C9_format_size :
    (∀ size : Nat,
      ((∃ p, format_size size = p ++ " GB") ↔ 1073741824 ≤ size) ∧
      ((∃ p, format_size size = p ++ " MB") ↔ size < 1073741824)) ∧
    format_size 1073741824 = "1.0 GB" ∧
    format_size 1073741823 = "1024.0 MB" := by
  have hcond : ∀ size : Nat, (1 ≤ (size : ℚ) / (1024 * 1024 * 1024)) ↔ 1073741824 ≤ size := by
    intro size
    rw [one_le_div (by norm_num : (0 : ℚ) < 1024 * 1024 * 1024),
      show ((1024 : ℚ) * 1024 * 1024) = ((1073741824 : ℕ) : ℚ) by norm_num, Nat.cast_le]
  have hMBneGB : ∀ p q : String, p ++ " MB" ≠ q ++ " GB" := by
    intro p q h
    have hd := congrArg String.data h
    rw [String.data_append, String.data_append] at hd
    have h2 := (List.append_inj' hd (by decide)).2
    exact absurd h2 (by decide)
  refine ⟨?_, ?_, ?_⟩
  · intro size
    by_cases h : 1073741824 ≤ size
    · have hc := (hcond size).mpr h
      refine ⟨⟨fun _ => h, fun _ => ⟨fmt1 size (1024 * 1024 * 1024), by rw [format_size, if_pos hc]⟩⟩, ?_, ?_⟩
      · rintro ⟨p, hp⟩
        rw [format_size, if_pos hc] at hp
        exact absurd hp.symm (hMBneGB p _)
      · intro hlt
        exact absurd hlt (by omega)
    · have hc : ¬ (1 ≤ (size : ℚ) / (1024 * 1024 * 1024)) := fun hq => h ((hcond size).mp hq)
      have hlt : size < 1073741824 := by omega
      refine ⟨⟨?_, fun h2 => absurd h2 h⟩, fun _ => hlt, fun _ => ⟨fmt1 size (1024 * 1024), by rw [format_size, if_neg hc]⟩⟩
      rintro ⟨p, hp⟩
      rw [format_size, if_neg hc] at hp
      exact absurd hp (hMBneGB _ p)
  · rw [format_size, if_pos ((hcond 1073741824).mpr (by norm_num))]
    decide
  · have hc : ¬ (1 ≤ ((1073741823 : ℕ) : ℚ) / (1024 * 1024 * 1024)) := by
      intro hq
      have h2 := (hcond 1073741823).mp hq
      omega
    rw [format_size, if_neg hc]
    decide

/-! ## Claim C10: key and name agreement, partition -/

theorem foldl_bump_names (evs : List LogEvent) :
    ∀ m : UsageMap, (∀ p ∈ m, (ModelUsage.name p.2) = p.1) →
      ∀ p ∈ evs.foldl bumpUsage m, (ModelUsage.name p.2) = p.1 := by
  induction evs with
  | nil =>
    intro m hm
    simpa using hm
  | cons e rest ih =>
    intro m hm
    simp only [List.foldl_cons]
    apply ih
    simp only [bumpUsage]
    refine aupdate_pointwise (fun k u => ModelUsage.name u = k) m e.name _ _ hm ?_ ?_
    · cases hc : e.cursor
      · simp [hc]
      · simp only [hc]
        split <;> rfl
    · intro u hu
      cases hc : e.cursor
      · simpa [hc] using hu
      · simp only [hc]
        split <;> simpa using hu

theorem foldl_bump_keys_nodup (evs : List LogEvent) :
    ∀ m : UsageMap, (m.map Prod.fst).Nodup →
      ((evs.foldl bumpUsage m).map Prod.fst).Nodup := by
  induction evs with
  | nil =>
    intro m hm
    simpa using hm
  | cons e rest ih =>
    intro m hm
    simp only [List.foldl_cons]
    exact ih _ (aupdate_keys_nodup _ _ _ _ hm)

/-- Claim C10: in the usage map built by parse_logs, every record's name
equals its key; the keys are distinct, hence so are the record names (at
most one record per resolved name per run); and the active filter (name
does not end in -deleted) and the deleted filter (name ends in -deleted)
put every usage record in exactly one of the two lists. -/
theorem claim_C10_usage_key_invariant (idx : ModelIndex)
    (prfc pslash : List Char → Option Int) (files : List LogFile) (usage : UsageMap)
    (hrun : parseLogs idx prfc pslash [] files = some usage) :
    (∀ p ∈ usage, (ModelUsage.name p.2) = p.1) ∧
    (usage.map Prod.fst).Nodup ∧
    (usage.map (fun p => ModelUsage.name p.2)).Nodup ∧
    (∀ u ∈ usage.map Prod.snd,
      (u ∈ activeOf usage ∧ u ∉ deletedOf usage) ∨
      (u ∉ activeOf usage ∧ u ∈ deletedOf usage)) := by
  rw [parseLogs_eq_extract] at hrun
  cases hx : extractAll idx prfc pslash files with
  | none =>
    rw [hx] at hrun
    cases hrun
  | some evs =>
    rw [hx, Option.map_some'] at hrun
    obtain rfl := Option.some.inj hrun
    have h1 : ∀ p ∈ evs.foldl bumpUsage [], (ModelUsage.name p.2) = p.1 :=
      foldl_bump_names evs [] (by simp)
    have h2 : ((evs.foldl bumpUsage []).map Prod.fst).Nodup :=
      foldl_bump_keys_nodup evs [] (by simp)
    refine ⟨h1, h2, ?_, ?_⟩
    · have hmaps : (evs.foldl bumpUsage []).map (fun p => ModelUsage.name p.2) =
          (evs.foldl bumpUsage []).map Prod.fst :=
        List.map_congr_left h1
      rw [hmaps]
      exact h2
    · intro u hu
      by_cases hd : strEnds u.name "-deleted" = true
      · right
        constructor
        · simp [activeOf, List.mem_filter, hd]
        · simp [deletedOf, List.mem_filter, hu, hd]
      · left
        constructor
        · simp [activeOf, List.mem_filter, hu, hd]
        · simp [deletedOf, List.mem_filter, hd]

/-- Witness for claim C10: the key list of the one-entry usage map built
from a single fallback load event has no duplicates. -/
theorem claim_C10_usage_key_invariant_witness :
    (([(cname, { name := cname, last_used := 0, usage_count := 1, size := 0 })] : UsageMap).map
      Prod.fst).Nodup :=
  (claim_C10_usage_key_invariant [] noParse noParse [⟨0, [evc]⟩]
    [(cname, { name := cname, last_used := 0, usage_count := 1, size := 0 })] (by decide)).2.1
